import Mathlib

/-!
# Verification of the `srp_tasks` task-management program

Shallow embedding of `src/srp_tasks.py` and proofs about it.

The embedding works over `List Char` for all text processing so that every
definition is executable by the kernel.  Python's machine-level behaviours are
modelled explicitly:

* `pyIntList` is Python's `int(str)` parser restricted to ASCII input
  (surrounding whitespace, an optional sign, decimal digits with single
  interior underscores);
* `intRepr` is Python's decimal formatting of an `int` inside an f-string;
* `esc` / `unesc` are `str.replace(",", "\\u002C")` and
  `str.replace("\\u002C", ",")` specialised to those fixed pattern strings
  (left-to-right, non-overlapping replacement);
* `splitChar` is `str.split(sep)` for a one-character separator;
* `pyLines` is iteration over the lines of a text file followed by
  `line.rstrip("\n")` on each line;
* `stripChars` / `listLower` are `str.strip()` / `str.lower()` restricted to
  ASCII input.
-/

namespace SrpTasks

/-- Python `str.strip()` whitespace test (ASCII whitespace characters). -/
def pySpace (c : Char) : Bool :=
  c == ' ' || c == '\t' || c == '\n' || c == '\r' || c == '\x0b' || c == '\x0c'

/-- Python `str.lower()` on one character (ASCII range). -/
def pyLowerChar (c : Char) : Char :=
  if 'A' ≤ c ∧ c ≤ 'Z' then Char.ofNat (c.toNat + 32) else c

/-- Python `str.lower()` (ASCII range). -/
def listLower (cs : List Char) : List Char := cs.map pyLowerChar

/-- Python `str.strip()` (ASCII whitespace). -/
def stripChars (cs : List Char) : List Char :=
  ((cs.dropWhile pySpace).reverse.dropWhile pySpace).reverse

/-- The `Priority` enum of `srp_tasks.py` (lines 26-29). -/
inductive Priority where
  | low
  | medium
  | high
deriving DecidableEq

/-- The `.value` payload of each `Priority` member. -/
def Priority.value : Priority → String
  | .low => "low"
  | .medium => "medium"
  | .high => "high"

/-- `Priority.from_str` (lines 31-42): lenient, case-insensitive parsing of a
priority string, `None`/empty/unknown falling back to `medium`. -/
def Priority.fromStr (value : Option String) : Priority :=
  match value with
  | none => Priority.medium
  | some s =>
    if s.data = [] then Priority.medium
    else
      let v := listLower (stripChars s.data)
      if v = "l".data ∨ v = "low".data then Priority.low
      else if v = "m".data ∨ v = "med".data ∨ v = "medium".data then Priority.medium
      else if v = "h".data ∨ v = "hi".data ∨ v = "high".data then Priority.high
      else Priority.medium

/-- The `Task` dataclass (lines 86-92). -/
structure Task where
  id : Int
  description : String
  due_date : Option String
  completed : Bool
  priority : Priority
deriving DecidableEq

/-! ## Python `int()` parsing -/

/-- One step of decimal accumulation. -/
def digitsStep (a : Nat) (c : Char) : Nat := a * 10 + (c.toNat - 48)

/-- Digits of a Python int literal after the first digit: decimal digits with
single interior underscores allowed (`int("1_2") == 12`, `int("1__2")` and
`int("1_")` raise). -/
def digitsAux : Nat → List Char → Option Nat
  | acc, [] => some acc
  | acc, c :: rest =>
    if c.isDigit then digitsAux (digitsStep acc c) rest
    else if c = '_' then
      match rest with
      | [] => none
      | c2 :: rest2 => if c2.isDigit then digitsAux (digitsStep acc c2) rest2 else none
    else none

/-- Parse a nonempty digit group (first character must be a digit). -/
def digitsStart : List Char → Option Nat
  | [] => none
  | c :: rest => if c.isDigit then digitsAux (c.toNat - 48) rest else none

/-- Sign handling of Python `int()` after stripping whitespace. -/
def pyIntAux : List Char → Option Int
  | [] => none
  | c :: rest =>
    if c = '+' then (digitsStart rest).map (fun n => (n : Int))
    else if c = '-' then (digitsStart rest).map (fun n => -(n : Int))
    else (digitsStart (c :: rest)).map (fun n => (n : Int))

/-- Python `int(s)` on ASCII input, `none` when `ValueError` is raised. -/
def pyIntList (cs : List Char) : Option Int := pyIntAux (stripChars cs)

/-! ## Python decimal formatting of an `int` -/

/-- Decimal digit character. -/
def digitChar : Nat → Char
  | 0 => '0'
  | 1 => '1'
  | 2 => '2'
  | 3 => '3'
  | 4 => '4'
  | 5 => '5'
  | 6 => '6'
  | 7 => '7'
  | 8 => '8'
  | 9 => '9'
  | _ => '*'

/-- Fuelled most-significant-first decimal digit expansion. -/
def natToDigitsAux : Nat → Nat → List Char
  | 0, _ => []
  | fuel + 1, n =>
    if n < 10 then [digitChar n]
    else natToDigitsAux fuel (n / 10) ++ [digitChar (n % 10)]

/-- Decimal digit string of a natural number. -/
def natToDigits (n : Nat) : List Char := natToDigitsAux (n + 1) n

/-- Python's decimal rendering of an `int` (as in `f"{t.id}"`). -/
def intRepr : Int → List Char
  | Int.ofNat n => natToDigits n
  | Int.negSucc n => '-' :: natToDigits (n + 1)

/-! ## The comma escape of the record codec

`save_tasks` (line 78) runs `description.replace(",", "\\u002C")`;
`load_tasks` (line 65) runs `parts[1].replace("\\u002C", ",")`.  The escape
token is the 6-character text `,`. -/

/-- `str.replace(",", "\\u002C")`: encoding-side comma escaping. -/
def esc : List Char → List Char
  | [] => []
  | ',' :: rest => '\\' :: 'u' :: '0' :: '0' :: '2' :: 'C' :: esc rest
  | c :: rest => c :: esc rest

/-- Whether a character list starts with the escape token `,`. -/
def startsTok : List Char → Bool
  | '\\' :: 'u' :: '0' :: '0' :: '2' :: 'C' :: _ => true
  | _ => false

/-- Whether the escape token `,` occurs anywhere in a character list. -/
def hasTok : List Char → Bool
  | [] => false
  | c :: rest => startsTok (c :: rest) || hasTok rest

/-- `str.replace("\\u002C", ",")`: decoding-side unescaping, left-to-right and
non-overlapping exactly as Python's `str.replace`. -/
def unesc : List Char → List Char
  | '\\' :: 'u' :: '0' :: '0' :: '2' :: 'C' :: rest => ',' :: unesc rest
  | c :: rest => c :: unesc rest
  | [] => []

/-! ## Splitting -/

/-- Python `str.split(sep)` for a single-character separator. -/
def splitChar (sep : Char) : List Char → List (List Char)
  | [] => [[]]
  | c :: rest =>
    if c = sep then [] :: splitChar sep rest
    else (c :: (splitChar sep rest).headD []) :: (splitChar sep rest).tail

/-- The lines a Python text-file iteration yields, each already
`rstrip("\n")`-ed: split on newlines, with no final empty line when the
content ends in a newline (or is empty). -/
def pyLines (cs : List Char) : List (List Char) :=
  let ls := splitChar '\n' cs
  if ls.getLast? = some [] then ls.dropLast else ls

/-! ## The record codec (`FileTaskStorage.save_tasks` / `load_tasks`) -/

/-- Rendering of `t.due_date` inside the f-string on line 79: `None` prints as
the literal text `None`, a string prints verbatim. -/
def dueData : Option String → List Char
  | none => "None".data
  | some s => s.data

/-- Rendering of `t.completed` inside the f-string on line 79 (`str(bool)`). -/
def boolData : Bool → List Char
  | true => "True".data
  | false => "False".data

/-- One encoded record line (without the trailing newline), as written by
`save_tasks` line 79: `id,escaped-description,due_date,completed,priority`. -/
def encodeTaskData (t : Task) : List Char :=
  intRepr t.id ++ ',' ::
    (esc t.description.data ++ ',' ::
      (dueData t.due_date ++ ',' ::
        (boolData t.completed ++ ',' :: (Priority.value t.priority).data)))

/-- Field parsing of `load_tasks` lines 63-70 once a line has split into 4 or
5 fields: `int(parts[0])` (the only possible `ValueError`), unescaping of the
description, the `"" `/`"None"` due-date sentinel, the case-insensitive
`"true"` test, and the lenient priority parse of an optional 5th field. -/
def parseFields (a b c d : List Char) (e : Option (List Char)) : Option Task :=
  match pyIntList a with
  | none => none
  | some i =>
    some
      { id := i
      , description := ⟨unesc b⟩
      , due_date := if c = [] ∨ c = "None".data then none else some ⟨c⟩
      , completed := listLower (stripChars d) == "true".data
      , priority :=
          match e with
          | none => Priority.medium
          | some p => Priority.fromStr (some ⟨p⟩) }

/-- Decoding of one stored line (`load_tasks` lines 60-72): split on commas,
accept only arity 4 or 5, otherwise skip (`none`). -/
def decodeLineData (cs : List Char) : Option Task :=
  match splitChar ',' cs with
  | [a, b, c, d] => parseFields a b c d none
  | [a, b, c, d, e] => parseFields a b c d (some e)
  | _ => none

/-- The full file content `save_tasks` writes: one record per line, each
followed by a newline, in the order given. -/
def saveData : List Task → List Char
  | [] => []
  | t :: ts => encodeTaskData t ++ '\n' :: saveData ts

/-- `save_tasks` output as a string. -/
def saveContent (ts : List Task) : String := ⟨saveData ts⟩

/-- `FileTaskStorage.load_tasks` (lines 52-73): a missing file (`none`) loads
an empty list; otherwise every line that decodes is kept, in order, and every
other line is silently skipped. -/
def load_tasks : Option String → List Task
  | none => []
  | some c => (pyLines c.data).filterMap decodeLineData

/-! ## The `TaskManager` registry (lines 107-151)

The state carries the backing file's content (`none` = the file does not
exist) together with the in-memory list and the id counter. -/

/-- A `TaskManager` paired with its `FileTaskStorage` backing medium. -/
structure ManagerState where
  file : Option String
  tasks : List Task
  next_id : Int
deriving DecidableEq

/-- `max((t.id for t in tasks), default=0)` from line 111. -/
def maxId : List Task → Int
  | [] => 0
  | t :: ts => ts.foldl (fun m u => max m u.id) t.id

/-- `TaskManager.__init__` (lines 108-112): load all tasks, set
`next_id = max(ids, default=0) + 1`.  Loading does not write the file. -/
def initManager (file : Option String) : ManagerState :=
  let tasks := load_tasks file
  { file := file, tasks := tasks, next_id := maxId tasks + 1 }

/-- The `priority` argument of `add_task` may be an already-typed `Priority`
or a raw optional string (line 118). -/
inductive PriorityArg where
  | enum (p : Priority)
  | str (s : Option String)

/-- Line 120: `priority if isinstance(priority, Priority) else
Priority.from_str(priority)`. -/
def resolvePriority : PriorityArg → Priority
  | .enum p => p
  | .str s => Priority.fromStr s

/-- `TaskManager.add_task` (lines 114-126): build a task with the current
`next_id`, append it, bump the counter, save the full list. -/
def add_task (st : ManagerState) (description : String) (due_date : Option String)
    (priority : PriorityArg) : Task × ManagerState :=
  let pr := resolvePriority priority
  let task : Task :=
    { id := st.next_id, description := description, due_date := due_date
    , completed := false, priority := pr }
  let tasks := st.tasks ++ [task]
  (task, { file := some (saveContent tasks), tasks := tasks, next_id := st.next_id + 1 })

/-- `TaskManager.get_task_by_id` (lines 131-132): first task with the id. -/
def get_task_by_id (st : ManagerState) (task_id : Int) : Option Task :=
  st.tasks.find? (fun t => t.id == task_id)

/-- The in-place effect of `task.mark_completed()` on the list: the first
task with the given id gets `completed := true`. -/
def markFirst (task_id : Int) : List Task → List Task
  | [] => []
  | t :: ts =>
    if t.id == task_id then { t with completed := true } :: ts
    else t :: markFirst task_id ts

/-- `TaskManager.mark_task_completed` (lines 134-141): `False` and no save
when the id is absent; otherwise mark the found task and save the full list. -/
def mark_task_completed (st : ManagerState) (task_id : Int) : Bool × ManagerState :=
  match get_task_by_id st task_id with
  | none => (false, st)
  | some _ =>
    let tasks := markFirst task_id st.tasks
    (true, { st with tasks := tasks, file := some (saveContent tasks) })

/-- `TaskManager.remove_task` (lines 143-151): rebuild the list without every
task of the given id; `False` and no save when nothing was dropped, otherwise
save the filtered list. -/
def remove_task (st : ManagerState) (task_id : Int) : Bool × ManagerState :=
  let before := st.tasks.length
  let tasks := st.tasks.filter (fun t => t.id != task_id)
  let st' := { st with tasks := tasks }
  if tasks.length = before then (false, st')
  else (true, { st' with file := some (saveContent tasks) })

/-! ## Character-level facts -/

lemma pySpace_eq_false_of_isDigit {c : Char} (h : c.isDigit = true) : pySpace c = false := by
  cases hps : pySpace c
  · rfl
  · exfalso
    simp only [pySpace, Bool.or_eq_true, beq_iff_eq] at hps
    rcases hps with ((((h1 | h1) | h1) | h1) | h1) | h1 <;> subst h1 <;>
      exact absurd h (by decide)

lemma isDigit_ne {c : Char} (h : c.isDigit = true) (d : Char) (hd : d.isDigit = false) :
    c ≠ d := by
  rintro rfl
  rw [h] at hd
  simp at hd

/-! ## `stripChars` -/

lemma dropWhile_eq_self_of_false {p : Char → Bool} {cs : List Char}
    (h : ∀ c ∈ cs, p c = false) : cs.dropWhile p = cs := by
  cases cs with
  | nil => rfl
  | cons c rest => simp [List.dropWhile_cons, h c (by simp)]

lemma stripChars_eq_self {cs : List Char} (h : ∀ c ∈ cs, pySpace c = false) :
    stripChars cs = cs := by
  unfold stripChars
  rw [dropWhile_eq_self_of_false h, dropWhile_eq_self_of_false (by simpa using h),
    List.reverse_reverse]

/-! ## Decimal digits: formatting / parsing round trip -/

lemma digitChar_isDigit {n : Nat} (h : n < 10) : (digitChar n).isDigit = true := by
  interval_cases n <;> decide

lemma digitChar_toNat {n : Nat} (h : n < 10) : (digitChar n).toNat - 48 = n := by
  interval_cases n <;> decide

lemma digitsAux_cons_digit {acc : Nat} {c : Char} {rest : List Char}
    (hc : c.isDigit = true) :
    digitsAux acc (c :: rest) = digitsAux (digitsStep acc c) rest := by
  rw [digitsAux.eq_def]
  simp [hc]

lemma digitsAux_all_digits : ∀ (cs : List Char) (acc : Nat),
    (∀ c ∈ cs, c.isDigit = true) → digitsAux acc cs = some (cs.foldl digitsStep acc) := by
  intro cs
  induction cs with
  | nil => intro acc _; rfl
  | cons c rest ih =>
    intro acc h
    have hc : c.isDigit = true := h c (by simp)
    rw [digitsAux_cons_digit hc, List.foldl_cons]
    exact ih (digitsStep acc c) (fun x hx => h x (by simp [hx]))

lemma natToDigitsAux_spec : ∀ (fuel n : Nat), n < fuel →
    (∀ c ∈ natToDigitsAux fuel n, c.isDigit = true) ∧
    natToDigitsAux fuel n ≠ [] ∧
    (natToDigitsAux fuel n).foldl digitsStep 0 = n := by
  intro fuel
  induction fuel with
  | zero => intro n h; exact absurd h (Nat.not_lt_zero n)
  | succ fuel ih =>
    intro n h
    by_cases h10 : n < 10
    · simp only [natToDigitsAux, if_pos h10]
      refine ⟨?_, by simp, ?_⟩
      · intro c hc
        simp only [List.mem_singleton] at hc
        subst hc
        exact digitChar_isDigit h10
      · simp [List.foldl, digitsStep, digitChar_toNat h10]
    · have hdiv : n / 10 < fuel := by
        have h1 : n / 10 < n := Nat.div_lt_self (by omega) (by omega)
        omega
      obtain ⟨hd, _, hval⟩ := ih (n / 10) hdiv
      have hmod : n % 10 < 10 := Nat.mod_lt _ (by omega)
      simp only [natToDigitsAux, if_neg h10]
      refine ⟨?_, by simp, ?_⟩
      · intro c hc
        rcases List.mem_append.mp hc with hc | hc
        · exact hd c hc
        · simp only [List.mem_singleton] at hc
          subst hc
          exact digitChar_isDigit hmod
      · rw [List.foldl_append, hval]
        simp only [List.foldl, digitsStep, digitChar_toNat hmod]
        omega

lemma natToDigits_all_digits {n : Nat} : ∀ c ∈ natToDigits n, c.isDigit = true :=
  (natToDigitsAux_spec (n + 1) n (Nat.lt_succ_self n)).1

lemma natToDigits_ne_nil {n : Nat} : natToDigits n ≠ [] :=
  (natToDigitsAux_spec (n + 1) n (Nat.lt_succ_self n)).2.1

lemma natToDigits_foldl {n : Nat} : (natToDigits n).foldl digitsStep 0 = n :=
  (natToDigitsAux_spec (n + 1) n (Nat.lt_succ_self n)).2.2

lemma digitsStart_natToDigits {n : Nat} : digitsStart (natToDigits n) = some n := by
  obtain ⟨c, rest, hcr⟩ : ∃ c rest, natToDigits n = c :: rest := by
    cases hh : natToDigits n with
    | nil => exact absurd hh natToDigits_ne_nil
    | cons c rest => exact ⟨c, rest, rfl⟩
  have hall := natToDigits_all_digits (n := n)
  rw [hcr] at hall ⊢
  have hc : c.isDigit = true := hall c (by simp)
  simp only [digitsStart, hc, if_pos]
  rw [digitsAux_all_digits rest (c.toNat - 48) (fun x hx => hall x (by simp [hx]))]
  have : rest.foldl digitsStep (c.toNat - 48) = (c :: rest).foldl digitsStep 0 := by
    simp [List.foldl_cons, digitsStep]
  rw [this, ← hcr, natToDigits_foldl]

lemma stripChars_intRepr {i : Int} : stripChars (intRepr i) = intRepr i := by
  apply stripChars_eq_self
  intro c hc
  cases i with
  | ofNat n => exact pySpace_eq_false_of_isDigit (natToDigits_all_digits c hc)
  | negSucc n =>
    simp only [intRepr, List.mem_cons] at hc
    rcases hc with hc | hc
    · subst hc; decide
    · exact pySpace_eq_false_of_isDigit (natToDigits_all_digits c hc)

/-- Python's `int()` parses back Python's decimal rendering of any `int`. -/
lemma pyIntList_intRepr {i : Int} : pyIntList (intRepr i) = some i := by
  unfold pyIntList
  rw [stripChars_intRepr]
  cases i with
  | ofNat n =>
    obtain ⟨c, rest, hcr⟩ : ∃ c rest, natToDigits n = c :: rest := by
      cases hh : natToDigits n with
      | nil => exact absurd hh natToDigits_ne_nil
      | cons c rest => exact ⟨c, rest, rfl⟩
    have hc : c.isDigit = true := by
      have := natToDigits_all_digits (n := n)
      rw [hcr] at this
      exact this c (by simp)
    simp only [intRepr, hcr]
    simp only [pyIntAux, if_neg (isDigit_ne hc '+' (by decide)),
      if_neg (isDigit_ne hc '-' (by decide))]
    rw [← hcr, digitsStart_natToDigits]
    rfl
  | negSucc n =>
    have h1 : pyIntAux ('-' :: natToDigits (n + 1)) =
        (digitsStart (natToDigits (n + 1))).map (fun m => -(m : Int)) := by
      rw [pyIntAux.eq_def]
      simp
    simp only [intRepr]
    rw [h1, digitsStart_natToDigits]
    simp [Int.negSucc_eq]

lemma intRepr_digit_or_minus {i : Int} {x : Char} (h : x ∈ intRepr i) :
    x.isDigit = true ∨ x = '-' := by
  cases i with
  | ofNat n => exact Or.inl (natToDigits_all_digits x h)
  | negSucc n =>
    simp only [intRepr, List.mem_cons] at h
    rcases h with h | h
    · exact Or.inr h
    · exact Or.inl (natToDigits_all_digits x h)

lemma comma_not_mem_intRepr {i : Int} : ',' ∉ intRepr i := by
  intro h
  rcases intRepr_digit_or_minus h with h' | h' <;> exact absurd h' (by decide)

lemma newline_not_mem_intRepr {i : Int} : '\n' ∉ intRepr i := by
  intro h
  rcases intRepr_digit_or_minus h with h' | h' <;> exact absurd h' (by decide)

/-! ## The comma escape: equations and the round trip -/

lemma esc_comma (rest : List Char) :
    esc (',' :: rest) = '\\' :: 'u' :: '0' :: '0' :: '2' :: 'C' :: esc rest := rfl

lemma unesc_tok (rest : List Char) :
    unesc ('\\' :: 'u' :: '0' :: '0' :: '2' :: 'C' :: rest) = ',' :: unesc rest := rfl

lemma esc_cons {c : Char} (rest : List Char) (h : c ≠ ',') :
    esc (c :: rest) = c :: esc rest := by
  rw [esc.eq_def]
  split <;> simp_all

lemma startsTok_iff (l : List Char) :
    startsTok l = true ↔ ∃ w, l = '\\' :: 'u' :: '0' :: '0' :: '2' :: 'C' :: w := by
  constructor
  · intro h
    rw [startsTok.eq_def] at h
    split at h
    · next w heq => exact ⟨_, rfl⟩
    · simp at h
  · rintro ⟨w, rfl⟩
    rfl

lemma unesc_cons {c : Char} (rest : List Char) (h : startsTok (c :: rest) = false) :
    unesc (c :: rest) = c :: unesc rest := by
  rw [unesc.eq_def]
  split
  · next w heq =>
    exfalso
    have htrue : startsTok (c :: rest) = true := by rw [heq]; rfl
    rw [h] at htrue
    simp at htrue
  · rename_i x c' rest' hno heq
    injection heq with h1 h2
    subst h1
    subst h2
    rfl
  · simp_all

lemma comma_not_mem_esc : ∀ (cs : List Char), ',' ∉ esc cs := by
  intro cs
  induction cs with
  | nil => simp [esc]
  | cons c rest ih =>
    by_cases hc : c = ','
    · subst hc
      rw [esc_comma]
      simp only [List.mem_cons]
      rintro (h | h | h | h | h | h | h) <;> first | exact absurd h (by decide) | exact ih h
    · rw [esc_cons _ hc]
      simp only [List.mem_cons]
      rintro (h | h)
      · exact hc h.symm
      · exact ih h

lemma mem_esc : ∀ (cs : List Char) (x : Char), x ∈ esc cs →
    x ∈ cs ∨ x ∈ ['\\', 'u', '0', '2', 'C'] := by
  intro cs
  induction cs with
  | nil => simp [esc]
  | cons c rest ih =>
    intro x hx
    by_cases hc : c = ','
    · subst hc
      rw [esc_comma] at hx
      simp only [List.mem_cons] at hx
      rcases hx with h | h | h | h | h | h | h
      · right; simp [h]
      · right; simp [h]
      · right; simp [h]
      · right; simp [h]
      · right; simp [h]
      · right; simp [h]
      · rcases ih x h with h' | h'
        · left; simp [h']
        · right; exact h'
    · rw [esc_cons _ hc] at hx
      simp only [List.mem_cons] at hx
      rcases hx with h | h
      · left; simp [h]
      · rcases ih x h with h' | h'
        · left; simp [h']
        · right; exact h'

lemma esc_eq_cons {r : List Char} {x : Char} {w : List Char}
    (hx1 : x ≠ '\\') (hx2 : x ≠ ',') (h : esc r = x :: w) :
    ∃ r', r = x :: r' ∧ esc r' = w := by
  cases r with
  | nil => simp [esc] at h
  | cons a r' =>
    by_cases ha : a = ','
    · subst ha
      rw [esc_comma] at h
      injection h with h1 _
      exact absurd h1.symm hx1
    · rw [esc_cons r' ha] at h
      injection h with h1 h2
      subst h1
      exact ⟨r', rfl, h2⟩

lemma startsTok_esc {c : Char} {r : List Char} (h : startsTok (c :: esc r) = true) :
    startsTok (c :: r) = true := by
  obtain ⟨w, hw⟩ := (startsTok_iff _).1 h
  injection hw with h1 h2
  subst h1
  obtain ⟨r1, hr1, he1⟩ := esc_eq_cons (by decide) (by decide) h2
  obtain ⟨r2, hr2, he2⟩ := esc_eq_cons (by decide) (by decide) he1
  obtain ⟨r3, hr3, he3⟩ := esc_eq_cons (by decide) (by decide) he2
  obtain ⟨r4, hr4, he4⟩ := esc_eq_cons (by decide) (by decide) he3
  obtain ⟨r5, hr5, he5⟩ := esc_eq_cons (by decide) (by decide) he4
  subst hr1
  subst hr2
  subst hr3
  subst hr4
  subst hr5
  rfl

/-- Unescaping inverts escaping on any text free of the escape token. -/
lemma unesc_esc : ∀ (cs : List Char), hasTok cs = false → unesc (esc cs) = cs := by
  intro cs
  induction cs with
  | nil => intro _; rfl
  | cons c rest ih =>
    intro h
    have h1 : startsTok (c :: rest) = false ∧ hasTok rest = false := by
      simpa [hasTok, Bool.or_eq_false_iff] using h
    by_cases hc : c = ','
    · subst hc
      rw [esc_comma, unesc_tok, ih h1.2]
    · rw [esc_cons _ hc]
      have hst : startsTok (c :: esc rest) = false := by
        cases hcc : startsTok (c :: esc rest)
        · rfl
        · exact absurd (startsTok_esc hcc) (by simp [h1.1])
      rw [unesc_cons _ hst, ih h1.2]

/-! ## Splitting lemmas -/

lemma splitChar_sep_append {sep : Char} : ∀ (xs ys : List Char), sep ∉ xs →
    splitChar sep (xs ++ sep :: ys) = xs :: splitChar sep ys := by
  intro xs
  induction xs with
  | nil => intro ys _; simp [splitChar]
  | cons x xs' ih =>
    intro ys h
    have hx : ¬ x = sep := by
      intro he
      exact h (by simp [he])
    have hm : sep ∉ xs' := fun hm => h (List.mem_cons_of_mem _ hm)
    simp only [List.cons_append, splitChar, if_neg hx, List.append_eq]
    rw [ih ys hm]
    simp

lemma splitChar_no_sep {sep : Char} : ∀ (xs : List Char), sep ∉ xs →
    splitChar sep xs = [xs] := by
  intro xs
  induction xs with
  | nil => intro _; rfl
  | cons x xs' ih =>
    intro h
    have hx : ¬ x = sep := by
      intro he
      exact h (by simp [he])
    have hm : sep ∉ xs' := fun hm => h (List.mem_cons_of_mem _ hm)
    simp only [splitChar, if_neg hx]
    rw [ih hm]
    simp

/-! ## Decoding an encoded line -/

/-- Due dates whose rendering survives one encode/decode of a single line: not
empty (the empty field reads back as absent), not the `None` sentinel, and
free of the field delimiter. -/
def goodDueLine : Option String → Prop
  | none => True
  | some s => s ≠ "" ∧ s ≠ "None" ∧ ',' ∉ s.data

/-- Due dates whose rendering additionally survives the line structure of the
file: also free of newlines. -/
def goodDueFile : Option String → Prop
  | none => True
  | some s => s ≠ "" ∧ s ≠ "None" ∧ ',' ∉ s.data ∧ '\n' ∉ s.data

lemma goodDueFile_toLine {o : Option String} (h : goodDueFile o) : goodDueLine o := by
  cases o with
  | none => trivial
  | some s => exact ⟨h.1, h.2.1, h.2.2.1⟩

lemma comma_not_mem_dueData {o : Option String} (h : goodDueLine o) : ',' ∉ dueData o := by
  cases o with
  | none => decide
  | some s => exact h.2.2

lemma splitChar_encode (t : Task) (hdue : goodDueLine t.due_date) :
    splitChar ',' (encodeTaskData t) =
      [intRepr t.id, esc t.description.data, dueData t.due_date,
        boolData t.completed, (Priority.value t.priority).data] := by
  unfold encodeTaskData
  rw [splitChar_sep_append _ _ comma_not_mem_intRepr,
    splitChar_sep_append _ _ (comma_not_mem_esc _),
    splitChar_sep_append _ _ (comma_not_mem_dueData hdue),
    splitChar_sep_append _ _ (by cases t.completed <;> decide),
    splitChar_no_sep _ (by cases t.priority <;> decide)]

/-- Decoding inverts encoding for a task whose description is free of the
escape token and whose due date is `goodDueLine`. -/
lemma decode_encode (t : Task) (h1 : hasTok t.description.data = false)
    (h2 : goodDueLine t.due_date) :
    decodeLineData (encodeTaskData t) = some t := by
  unfold decodeLineData
  rw [splitChar_encode t h2]
  show parseFields _ _ _ _ _ = some t
  unfold parseFields
  rw [pyIntList_intRepr]
  show some _ = some t
  obtain ⟨i, desc, due, comp, pr⟩ := t
  have hdesc : (⟨unesc (esc desc.data)⟩ : String) = desc := by
    rw [unesc_esc _ h1]
  have hdue : (if dueData due = [] ∨ dueData due = "None".data then none
      else some (⟨dueData due⟩ : String)) = due := by
    cases due with
    | none => simp [dueData]
    | some s =>
      obtain ⟨h2a, h2b, _⟩ := h2
      have ha : ¬ s.data = [] := fun he => h2a (String.ext (by simp [he]))
      have hb : ¬ s.data = "None".data := fun he => h2b (String.ext (by simp [he]))
      simp [dueData, ha, hb]
  have hcomp : (listLower (stripChars (boolData comp)) == "true".data) = comp := by
    cases comp <;> decide
  have hpr : Priority.fromStr (some ⟨(Priority.value pr).data⟩) = pr := by
    cases pr <;> decide
  simp only [hdesc, hdue, hcomp, hpr]

/-! ## The file cycle: save then load -/

lemma newline_not_mem_encode (t : Task) (hdesc : '\n' ∉ t.description.data)
    (hdue : '\n' ∉ dueData t.due_date) : '\n' ∉ encodeTaskData t := by
  unfold encodeTaskData
  intro h
  simp only [List.mem_append, List.mem_cons] at h
  rcases h with h | h | h | h | h | h | h | h | h
  · exact newline_not_mem_intRepr h
  · exact absurd h (by decide)
  · rcases mem_esc _ _ h with h' | h'
    · exact hdesc h'
    · simp only [List.mem_cons] at h'
      rcases h' with h' | h' | h' | h' | h' | h' <;> simp at h'
  · exact absurd h (by decide)
  · exact hdue h
  · exact absurd h (by decide)
  · revert h
    cases t.completed <;> decide
  · exact absurd h (by decide)
  · revert h
    cases t.priority <;> decide

lemma splitChar_saveData : ∀ (ts : List Task), (∀ t ∈ ts, '\n' ∉ encodeTaskData t) →
    splitChar '\n' (saveData ts) = ts.map encodeTaskData ++ [[]] := by
  intro ts
  induction ts with
  | nil => intro _; rfl
  | cons t ts' ih =>
    intro h
    show splitChar '\n' (encodeTaskData t ++ '\n' :: saveData ts') = _
    rw [splitChar_sep_append _ _ (h t (by simp)), ih (fun u hu => h u (by simp [hu]))]
    rfl

lemma pyLines_saveData (ts : List Task) (h : ∀ t ∈ ts, '\n' ∉ encodeTaskData t) :
    pyLines (saveData ts) = ts.map encodeTaskData := by
  unfold pyLines
  rw [splitChar_saveData ts h]
  simp

/-- Tasks that survive the full save/load cycle: escape-token-free and
newline-free description, well-behaved due date. -/
def goodTask (t : Task) : Prop :=
  hasTok t.description.data = false ∧ '\n' ∉ t.description.data ∧ goodDueFile t.due_date

lemma filterMap_decode_encode : ∀ (ts : List Task),
    (∀ t ∈ ts, decodeLineData (encodeTaskData t) = some t) →
    (ts.map encodeTaskData).filterMap decodeLineData = ts := by
  intro ts
  induction ts with
  | nil => intro _; rfl
  | cons t ts' ih =>
    intro h
    simp only [List.map_cons, List.filterMap_cons, h t (by simp)]
    rw [ih (fun u hu => h u (by simp [hu]))]

/-- Saving a list of good tasks and loading the file back returns the same
list, and the saved file holds exactly one encoded record per line in the
order given. -/
lemma load_saveContent (ts : List Task) (h : ∀ t ∈ ts, goodTask t) :
    load_tasks (some (saveContent ts)) = ts ∧
      pyLines (saveContent ts).data = ts.map encodeTaskData := by
  have hnl : ∀ t ∈ ts, '\n' ∉ encodeTaskData t := by
    intro t ht
    obtain ⟨_, hd, hdue⟩ := h t ht
    apply newline_not_mem_encode t hd
    cases hde : t.due_date with
    | none => decide
    | some s =>
      rw [hde] at hdue
      exact hdue.2.2.2
  have hlines : pyLines (saveContent ts).data = ts.map encodeTaskData :=
    pyLines_saveData ts hnl
  refine ⟨?_, hlines⟩
  show (pyLines (saveContent ts).data).filterMap decodeLineData = ts
  rw [hlines]
  exact filterMap_decode_encode ts fun t ht =>
    decode_encode t (h t ht).1 (goodDueFile_toLine (h t ht).2.2)

/-! ## Registry lemmas -/

lemma le_foldl_max : ∀ (l : List Task) (a : Int),
    a ≤ l.foldl (fun m u => max m u.id) a := by
  intro l
  induction l with
  | nil => intro a; exact le_refl a
  | cons t l' ih =>
    intro a
    exact le_trans (le_max_left a t.id) (ih (max a t.id))

lemma mem_le_foldl_max : ∀ (l : List Task) (a : Int) (t : Task), t ∈ l →
    t.id ≤ l.foldl (fun m u => max m u.id) a := by
  intro l
  induction l with
  | nil => intro a t ht; cases ht
  | cons u l' ih =>
    intro a t ht
    rcases List.mem_cons.mp ht with rfl | ht'
    · exact le_trans (le_max_right a t.id) (le_foldl_max l' (max a t.id))
    · exact ih (max a u.id) t ht'

lemma foldl_max_attained : ∀ (l : List Task) (a : Int),
    l.foldl (fun m u => max m u.id) a = a ∨
      ∃ t ∈ l, l.foldl (fun m u => max m u.id) a = t.id := by
  intro l
  induction l with
  | nil => intro a; exact Or.inl rfl
  | cons u l' ih =>
    intro a
    rcases ih (max a u.id) with h | ⟨t, ht, h⟩
    · rcases max_choice a u.id with hm | hm
      · exact Or.inl (by rw [List.foldl_cons, h, hm])
      · exact Or.inr ⟨u, by simp, by rw [List.foldl_cons, h, hm]⟩
    · exact Or.inr ⟨t, List.mem_cons_of_mem _ ht, by rw [List.foldl_cons, h]⟩

lemma maxId_le {ts : List Task} : ∀ t ∈ ts, t.id ≤ maxId ts := by
  cases ts with
  | nil => intro t ht; cases ht
  | cons u ts' =>
    intro t ht
    rcases List.mem_cons.mp ht with rfl | ht'
    · exact le_foldl_max ts' t.id
    · exact mem_le_foldl_max ts' u.id t ht'

lemma maxId_attained {ts : List Task} (h : ts ≠ []) : ∃ t ∈ ts, maxId ts = t.id := by
  cases ts with
  | nil => exact absurd rfl h
  | cons u ts' =>
    rcases foldl_max_attained ts' u.id with h' | ⟨t, ht, h'⟩
    · exact ⟨u, by simp, h'⟩
    · exact ⟨t, List.mem_cons_of_mem _ ht, h'⟩

lemma markFirst_map_id (task_id : Int) : ∀ (l : List Task),
    (markFirst task_id l).map Task.id = l.map Task.id := by
  intro l
  induction l with
  | nil => rfl
  | cons t l' ih =>
    cases hbeq : (t.id == task_id) <;> simp [markFirst, hbeq, ih]

lemma markFirst_map_core (task_id : Int) : ∀ (l : List Task),
    (markFirst task_id l).map (fun t => (t.id, t.description, t.due_date, t.priority)) =
      l.map (fun t => (t.id, t.description, t.due_date, t.priority)) := by
  intro l
  induction l with
  | nil => rfl
  | cons t l' ih =>
    cases hbeq : (t.id == task_id) <;> simp [markFirst, hbeq, ih]

lemma markFirst_completed (task_id : Int) : ∀ (l : List Task),
    (∃ t ∈ l, t.id = task_id) →
    ∃ t ∈ markFirst task_id l, t.id = task_id ∧ t.completed = true := by
  intro l
  induction l with
  | nil => rintro ⟨t, ht, _⟩; cases ht
  | cons u l' ih =>
    rintro ⟨t, ht, htid⟩
    cases hbeq : (u.id == task_id) with
    | true =>
      refine ⟨{ u with completed := true }, by simp [markFirst, hbeq], ?_, rfl⟩
      simpa using hbeq
    | false =>
      rcases List.mem_cons.mp ht with rfl | ht'
      · rw [htid] at hbeq
        simp at hbeq
      · obtain ⟨v, hv, hvid, hvc⟩ := ih ⟨t, ht', htid⟩
        exact ⟨v, by simp [markFirst, hbeq, hv], hvid, hvc⟩

lemma markFirst_mem_id {task_id : Int} {l : List Task} {t : Task}
    (ht : t ∈ markFirst task_id l) : t.id ∈ l.map Task.id := by
  rw [← markFirst_map_id task_id l]
  exact List.mem_map_of_mem _ ht

/-! ## Shared concrete data and invariants for the claims -/

/-- The normalisation `value.strip().lower()` applied by `Priority.from_str`
(line 35). -/
def pyNorm (s : String) : String := ⟨listLower (stripChars s.data)⟩

/-- A concrete pending task with id 1. -/
def demoTask : Task :=
  { id := 1, description := "a", due_date := none, completed := false
  , priority := .medium }

/-- A small concrete registry state: one pending task with id 1. -/
def demoState : ManagerState :=
  { file := none, tasks := [demoTask], next_id := 2 }

/-- A stored medium holding the ids 3, 7 and 2. -/
def file372 : Option String :=
  some "3,a,None,False\n7,b,None,False\n2,c,None,False\n"

/-- The registry invariant of the spec: ids pairwise distinct and below the
counter. -/
def RegistryInv (st : ManagerState) : Prop :=
  (st.tasks.map Task.id).Nodup ∧ ∀ t ∈ st.tasks, t.id < st.next_id

/-! ## The claims -/

/-- C7: initializing the registry against a nonexistent backing medium yields
an empty task list and next-id 1 (and does not create the file); a missing
file is a fresh start, not a failure — `load_tasks` returns `[]` for it. -/
theorem C7_fresh_start :
    load_tasks none = [] ∧
    (initManager none).tasks = [] ∧
    (initManager none).next_id = 1 ∧
    (initManager none).file = none := by
  refine ⟨rfl, rfl, ?_, rfl⟩
  decide

/-- A task whose description is the one-character text `,`. -/
def commaTask : Task :=
  { id := 1, description := ",", due_date := none, completed := false
  , priority := .medium }

/-- A task whose description is the literal 6-character escape token. -/
def tokenTask : Task :=
  { id := 1, description := "\\u002C", due_date := none, completed := false
  , priority := .medium }

/-- C9: the comma escaping of the codec is not injective: the task whose
description is the single character `,` and the distinct task whose
description is the literal 6-character text `,` encode to the very same
line, so their encoded lines decode to the same task. -/
theorem C9_escape_not_injective :
    commaTask ≠ tokenTask ∧
    encodeTaskData commaTask = encodeTaskData tokenTask ∧
    decodeLineData (encodeTaskData commaTask) = decodeLineData (encodeTaskData tokenTask) := by
  refine ⟨by decide, by decide, by decide⟩

/-- C6: a stored line is accepted only when it splits into exactly 4 or 5
comma-separated fields and its first field parses as a Python integer; any
other line is skipped, load continuing without error — concretely, a medium
holding one well-formed line and one 2-field line loads exactly one task. -/
theorem C6_line_acceptance :
    (∀ line : List Char, decodeLineData line ≠ none →
      ((splitChar ',' line).length = 4 ∨ (splitChar ',' line).length = 5) ∧
        pyIntList ((splitChar ',' line).headD []) ≠ none) ∧
    load_tasks (some "1,do,None,False\na,b\n") =
      [{ id := 1, description := "do", due_date := none, completed := false
       , priority := .medium }] := by
  constructor
  · intro line h
    unfold decodeLineData at h
    rcases hs : splitChar ',' line with _ | ⟨a, _ | ⟨b, _ | ⟨c, _ | ⟨d, _ | ⟨e, _ | ⟨f, rest⟩⟩⟩⟩⟩⟩ <;>
        rw [hs] at h
    · exact absurd rfl h
    · exact absurd rfl h
    · exact absurd rfl h
    · exact absurd rfl h
    · change parseFields a b c d none ≠ none at h
      refine ⟨Or.inl rfl, ?_⟩
      simp only [List.headD_cons]
      intro hp
      unfold parseFields at h
      rw [hp] at h
      exact h rfl
    · change parseFields a b c d (some e) ≠ none at h
      refine ⟨Or.inr rfl, ?_⟩
      simp only [List.headD_cons]
      intro hp
      unfold parseFields at h
      rw [hp] at h
      exact h rfl
    · exact absurd rfl h
  · decide

/-- C6 witness: the acceptance conditions hold at the concrete accepted line
`1,a,None,False`. -/
theorem C6_witness :
    ((splitChar ',' "1,a,None,False".data).length = 4 ∨
      (splitChar ',' "1,a,None,False".data).length = 5) ∧
    pyIntList ((splitChar ',' "1,a,None,False".data).headD []) ≠ none :=
  C6_line_acceptance.1 "1,a,None,False".data (by decide)

/-- C8: the priority-string mapping sends, case-insensitively after trimming,
l/low to low, m/med/medium to medium, h/hi/high to high, and every other
string as well as an absent value to medium; adding with priority string
`HI` yields high, with `bogus` yields medium. -/
theorem C8_priority_lenient_mapping :
    Priority.fromStr none = Priority.medium ∧
    (∀ s : String,
      ((pyNorm s = "l" ∨ pyNorm s = "low") → Priority.fromStr (some s) = .low) ∧
      ((pyNorm s = "m" ∨ pyNorm s = "med" ∨ pyNorm s = "medium") →
        Priority.fromStr (some s) = .medium) ∧
      ((pyNorm s = "h" ∨ pyNorm s = "hi" ∨ pyNorm s = "high") →
        Priority.fromStr (some s) = .high) ∧
      (pyNorm s ∉ (["l", "low", "m", "med", "medium", "h", "hi", "high"] : List String) →
        Priority.fromStr (some s) = .medium)) ∧
    (∀ st : ManagerState,
      (add_task st "x" none (.str (some "HI"))).1.priority = .high ∧
      (add_task st "x" none (.str (some "bogus"))).1.priority = .medium) := by
  have hconv : ∀ (s w : String), (pyNorm s = w) ↔ listLower (stripChars s.data) = w.data :=
    fun s w => ⟨fun h => congrArg String.data h, fun h => String.ext h⟩
  refine ⟨rfl, ?_, fun st => ⟨rfl, rfl⟩⟩
  intro s
  by_cases hempty : s.data = []
  · have hs : s = "" := String.ext (by simp [hempty])
    subst hs
    exact ⟨fun h => absurd h (by decide), fun h => absurd h (by decide),
      fun h => absurd h (by decide), fun _ => by decide⟩
  · refine ⟨?_, ?_, ?_, ?_⟩
    · intro h
      have hv : listLower (stripChars s.data) = "l".data ∨
          listLower (stripChars s.data) = "low".data := by
        rcases h with h | h
        · exact Or.inl ((hconv s _).1 h)
        · exact Or.inr ((hconv s _).1 h)
      simp only [Priority.fromStr, if_neg hempty]
      rw [if_pos hv]
    · intro h
      have hv : listLower (stripChars s.data) = "m".data ∨
          listLower (stripChars s.data) = "med".data ∨
          listLower (stripChars s.data) = "medium".data := by
        rcases h with h | h | h
        · exact Or.inl ((hconv s _).1 h)
        · exact Or.inr (Or.inl ((hconv s _).1 h))
        · exact Or.inr (Or.inr ((hconv s _).1 h))
      have h1 : ¬ (listLower (stripChars s.data) = "l".data ∨
          listLower (stripChars s.data) = "low".data) := by
        rcases hv with h' | h' | h' <;> rw [h'] <;> decide
      simp only [Priority.fromStr, if_neg hempty]
      rw [if_neg h1, if_pos hv]
    · intro h
      have hv : listLower (stripChars s.data) = "h".data ∨
          listLower (stripChars s.data) = "hi".data ∨
          listLower (stripChars s.data) = "high".data := by
        rcases h with h | h | h
        · exact Or.inl ((hconv s _).1 h)
        · exact Or.inr (Or.inl ((hconv s _).1 h))
        · exact Or.inr (Or.inr ((hconv s _).1 h))
      have h1 : ¬ (listLower (stripChars s.data) = "l".data ∨
          listLower (stripChars s.data) = "low".data) := by
        rcases hv with h' | h' | h' <;> rw [h'] <;> decide
      have h2 : ¬ (listLower (stripChars s.data) = "m".data ∨
          listLower (stripChars s.data) = "med".data ∨
          listLower (stripChars s.data) = "medium".data) := by
        rcases hv with h' | h' | h' <;> rw [h'] <;> decide
      simp only [Priority.fromStr, if_neg hempty]
      rw [if_neg h1, if_neg h2, if_pos hv]
    · intro h
      have h1 : ¬ (listLower (stripChars s.data) = "l".data ∨
          listLower (stripChars s.data) = "low".data) := by
        rintro (h' | h')
        · exact h (by simp [(hconv s "l").2 h'])
        · exact h (by simp [(hconv s "low").2 h'])
      have h2 : ¬ (listLower (stripChars s.data) = "m".data ∨
          listLower (stripChars s.data) = "med".data ∨
          listLower (stripChars s.data) = "medium".data) := by
        rintro (h' | h' | h')
        · exact h (by simp [(hconv s "m").2 h'])
        · exact h (by simp [(hconv s "med").2 h'])
        · exact h (by simp [(hconv s "medium").2 h'])
      have h3 : ¬ (listLower (stripChars s.data) = "h".data ∨
          listLower (stripChars s.data) = "hi".data ∨
          listLower (stripChars s.data) = "high".data) := by
        rintro (h' | h' | h')
        · exact h (by simp [(hconv s "h").2 h'])
        · exact h (by simp [(hconv s "hi").2 h'])
        · exact h (by simp [(hconv s "high").2 h'])
      simp only [Priority.fromStr, if_neg hempty]
      rw [if_neg h1, if_neg h2, if_neg h3]

/-- C8 witness: the four mapping branches at concrete strings. -/
theorem C8_witness :
    Priority.fromStr (some " L ") = .low ∧ Priority.fromStr (some "MED") = .medium ∧
    Priority.fromStr (some "hi") = .high ∧ Priority.fromStr (some "bogus") = .medium :=
  ⟨(C8_priority_lenient_mapping.2.1 " L ").1 (by decide),
   (C8_priority_lenient_mapping.2.1 "MED").2.1 (by decide),
   (C8_priority_lenient_mapping.2.1 "hi").2.2.1 (by decide),
   (C8_priority_lenient_mapping.2.1 "bogus").2.2.2 (by decide)⟩

/-- C10: a single remove call deletes every task whose id matches, not only
the first: afterwards no task with that id remains, also when the registry
was initialised from a medium holding duplicate ids (concretely, two stored
lines with id 1 load as two tasks and one `remove(1)` empties the list). -/
theorem C10_remove_removes_all_matches (st : ManagerState) (task_id : Int) :
    (∀ t ∈ (remove_task st task_id).2.tasks, t.id ≠ task_id) ∧
    (initManager (some "1,a,None,False\n1,b,None,False\n")).tasks.map Task.id = [1, 1] ∧
    (remove_task (initManager (some "1,a,None,False\n1,b,None,False\n")) 1).2.tasks = [] := by
  refine ⟨?_, by decide, by decide⟩
  intro t ht
  have htf : t ∈ st.tasks.filter (fun u => u.id != task_id) := by
    simp only [remove_task] at ht
    split at ht
    · exact ht
    · exact ht
  rw [List.mem_filter] at htf
  simpa using htf.2

/-- C10 witness: removing id 2 from the demo state leaves the id-1 task,
whose id the theorem reports as different from 2. -/
theorem C10_witness : demoTask.id ≠ 2 :=
  (C10_remove_removes_all_matches demoState 2).1 demoTask (by decide)

/-- C2: each of the three mutating operations leaves the backing file holding
exactly the full save of the in-memory list before returning: always after
`add_task`, and after `mark_task_completed`/`remove_task` whenever they
return true. -/
theorem C2_save_after_every_mutation (st : ManagerState) (d : String)
    (due : Option String) (p : PriorityArg) (task_id : Int) :
    ((add_task st d due p).2.file = some (saveContent (add_task st d due p).2.tasks)) ∧
    ((mark_task_completed st task_id).1 = true →
      (mark_task_completed st task_id).2.file =
        some (saveContent (mark_task_completed st task_id).2.tasks)) ∧
    ((remove_task st task_id).1 = true →
      (remove_task st task_id).2.file =
        some (saveContent (remove_task st task_id).2.tasks)) := by
  refine ⟨rfl, ?_, ?_⟩
  · intro h
    unfold mark_task_completed get_task_by_id at h ⊢
    cases hf : st.tasks.find? (fun t => t.id == task_id) with
    | none =>
      rw [hf] at h
      simp at h
    | some u => rfl
  · intro h
    simp only [remove_task] at h ⊢
    by_cases hc : (st.tasks.filter (fun t => t.id != task_id)).length = st.tasks.length
    · rw [if_pos hc] at h
      simp at h
    · rw [if_neg hc]

/-- C2 witness: marking and removing the present id 1 in the demo state
leave the file holding the save of the current list. -/
theorem C2_witness :
    (mark_task_completed demoState 1).2.file =
      some (saveContent (mark_task_completed demoState 1).2.tasks) ∧
    (remove_task demoState 1).2.file =
      some (saveContent (remove_task demoState 1).2.tasks) :=
  ⟨(C2_save_after_every_mutation demoState "d" none (.str none) 1).2.1 (by decide),
   (C2_save_after_every_mutation demoState "d" none (.str none) 1).2.2 (by decide)⟩

/-- C5: on an absent id both `mark_task_completed` and `remove_task` return
false and leave the whole state (list and file) unchanged; on a present id,
`mark_task_completed` returns true, saves, completes a task with that id and
changes nothing but completion flags, and `remove_task` returns true, saves,
and leaves no task with that id. -/
theorem C5_absent_noop_present_mutates (st : ManagerState) (task_id : Int) :
    ((∀ t ∈ st.tasks, t.id ≠ task_id) →
      mark_task_completed st task_id = (false, st) ∧
      remove_task st task_id = (false, st)) ∧
    ((∃ t ∈ st.tasks, t.id = task_id) →
      (mark_task_completed st task_id).1 = true ∧
      (mark_task_completed st task_id).2.file =
        some (saveContent (mark_task_completed st task_id).2.tasks) ∧
      (∃ t ∈ (mark_task_completed st task_id).2.tasks,
        t.id = task_id ∧ t.completed = true) ∧
      ((mark_task_completed st task_id).2.tasks.map
          (fun t => (t.id, t.description, t.due_date, t.priority)) =
        st.tasks.map (fun t => (t.id, t.description, t.due_date, t.priority))) ∧
      (remove_task st task_id).1 = true ∧
      (remove_task st task_id).2.file =
        some (saveContent (remove_task st task_id).2.tasks) ∧
      (∀ t ∈ (remove_task st task_id).2.tasks, t.id ≠ task_id)) := by
  constructor
  · intro h
    have hfind : st.tasks.find? (fun t => t.id == task_id) = none :=
      List.find?_eq_none.mpr (fun t ht => by simpa using h t ht)
    constructor
    · unfold mark_task_completed get_task_by_id
      rw [hfind]
    · have hfilter : st.tasks.filter (fun t => t.id != task_id) = st.tasks :=
        List.filter_eq_self.mpr (fun t ht => by simpa using h t ht)
      simp only [remove_task]
      rw [hfilter, if_pos rfl]
  · intro h
    obtain ⟨u, hu, huid⟩ := h
    have hfind : (st.tasks.find? (fun t => t.id == task_id)).isSome := by
      rw [List.find?_isSome]
      exact ⟨u, hu, by simpa using huid⟩
    obtain ⟨v, hv⟩ := Option.isSome_iff_exists.mp hfind
    have hmark1 : (mark_task_completed st task_id).1 = true := by
      unfold mark_task_completed get_task_by_id
      rw [hv]
    have hmark2 : (mark_task_completed st task_id).2.tasks = markFirst task_id st.tasks := by
      unfold mark_task_completed get_task_by_id
      rw [hv]
    have hmark3 : (mark_task_completed st task_id).2.file =
        some (saveContent (markFirst task_id st.tasks)) := by
      unfold mark_task_completed get_task_by_id
      rw [hv]
    have hlen : (st.tasks.filter (fun t => t.id != task_id)).length < st.tasks.length :=
      List.length_filter_lt_length_iff_exists.mpr ⟨u, hu, by simp [huid]⟩
    have hrem1 : (remove_task st task_id).1 = true := by
      simp only [remove_task]
      rw [if_neg (by omega)]
    have hrem2 : (remove_task st task_id).2.tasks =
        st.tasks.filter (fun t => t.id != task_id) := by
      simp only [remove_task]
      rw [if_neg (by omega)]
    have hrem3 : (remove_task st task_id).2.file =
        some (saveContent (st.tasks.filter (fun t => t.id != task_id))) := by
      simp only [remove_task]
      rw [if_neg (by omega)]
    refine ⟨hmark1, ?_, ?_, ?_, hrem1, ?_, ?_⟩
    · rw [hmark3, hmark2]
    · rw [hmark2]
      exact markFirst_completed task_id st.tasks ⟨u, hu, huid⟩
    · rw [hmark2]
      exact markFirst_map_core task_id st.tasks
    · rw [hrem3, hrem2]
    · rw [hrem2]
      intro t ht
      rw [List.mem_filter] at ht
      simpa using ht.2

/-- C5 witness: the absent id 2 is a no-op on the demo state; the present
id 1 is marked with a save. -/
theorem C5_witness :
    mark_task_completed demoState 2 = (false, demoState) ∧
    remove_task demoState 2 = (false, demoState) ∧
    (mark_task_completed demoState 1).1 = true ∧
    (remove_task demoState 1).1 = true :=
  ⟨((C5_absent_noop_present_mutates demoState 2).1 (by decide)).1,
   ((C5_absent_noop_present_mutates demoState 2).1 (by decide)).2,
   ((C5_absent_noop_present_mutates demoState 1).2 ⟨demoTask, by decide, by decide⟩).1,
   ((C5_absent_noop_present_mutates demoState 1).2 ⟨demoTask, by decide, by decide⟩).2.2.2.2.1⟩

/-- C1 counterexample: a task whose description contains a comma and also the
escape token: the encoded line decodes to a task with description `,,`, not
the original. -/
def c1Task : Task :=
  { id := 1, description := ",\\u002C", due_date := none, completed := false
  , priority := .medium }

/-- C1 fails as stated: `c1Task` has a comma in its description, yet decoding
its encoded line does not reproduce it. -/
theorem C1_counterexample :
    ',' ∈ c1Task.description.data ∧
    decodeLineData (encodeTaskData c1Task) ≠ some c1Task := by
  refine ⟨by decide, by decide⟩

/-- C1 (amended): decoding the encoded line reproduces the task exactly for
any task whose description contains the delimiter, provided the description
is free of the escape token and the due date is absent or a nonempty string
other than `None` that is free of commas. -/
theorem C1_roundtrip_amended (t : Task) (_hc : ',' ∈ t.description.data)
    (h1 : hasTok t.description.data = false) (h2 : goodDueLine t.due_date) :
    decodeLineData (encodeTaskData t) = some t :=
  decode_encode t h1 h2

/-- C1 witness: a concrete comma-bearing task round trips. -/
def c1Witness : Task :=
  { id := 7, description := "a,b", due_date := some "2024-08-10"
  , completed := true, priority := .high }

theorem C1_witness :
    decodeLineData (encodeTaskData c1Witness) = some c1Witness :=
  C1_roundtrip_amended c1Witness (by decide) (by decide)
    ⟨by decide, by decide, by decide⟩

/-- C3 counterexample: a one-task list whose due date contains a comma: the
saved line splits into six fields and is skipped on load, so the reloaded
list is empty, not the original. -/
def c3Task : Task :=
  { id := 1, description := "a", due_date := some "x,y", completed := false
  , priority := .medium }

theorem C3_counterexample :
    load_tasks (some (saveContent [c3Task])) ≠ [c3Task] := by
  decide

/-- C3 (amended): for any list of tasks whose descriptions are free of the
escape token and of newlines and whose due dates are absent or nonempty
non-`None` strings free of commas and newlines, saving then loading returns
an equal list in the same order, and the saved medium holds exactly one
record per line in the order given. -/
theorem C3_save_load_amended (ts : List Task) (h : ∀ t ∈ ts, goodTask t) :
    load_tasks (some (saveContent ts)) = ts ∧
      pyLines (saveContent ts).data = ts.map encodeTaskData :=
  load_saveContent ts h

/-- C3 witness: a concrete two-task list (one description with commas) round
trips through the file. -/
def c3Witness : List Task :=
  [{ id := 1, description := "a,b,c", due_date := some "2024-08-10"
   , completed := false, priority := .low },
   { id := 2, description := "plain", due_date := none
   , completed := true, priority := .high }]

theorem C3_witness :
    load_tasks (some (saveContent c3Witness)) = c3Witness :=
  (C3_save_load_amended c3Witness (by
    intro t ht
    simp only [c3Witness, List.mem_cons, List.mem_singleton] at ht
    rcases ht with rfl | rfl | h
    · exact ⟨by decide, by decide, by decide, by decide, by decide, by decide⟩
    · exact ⟨by decide, by decide, trivial⟩
    · cases h)).1

/-- C4 counterexample: a medium holding two lines with id 1 initialises a
registry whose task ids are not pairwise distinct, refuting unconditional
uniqueness. -/
theorem C4_counterexample :
    ¬ ((initManager (some "1,a,None,False\n1,b,None,False\n")).tasks.map Task.id).Nodup := by
  decide

/-- C4 (amended): after initialization next-id is the maximum loaded id plus
one (1 when nothing loads); every add assigns the current next-id, appends,
and increments, so ids assigned in a session are monotonically increasing; in
particular stored ids 3, 7, 2 make the next add assign 8; and provided the
loaded ids are pairwise distinct, uniqueness together with the id bound is
established at initialization and preserved by add, mark and remove. -/
theorem C4_ids_amended (file : Option String) :
    (∀ t ∈ (initManager file).tasks, t.id < (initManager file).next_id) ∧
    (load_tasks file = [] → (initManager file).next_id = 1) ∧
    (load_tasks file ≠ [] →
      ∃ t ∈ (initManager file).tasks, (initManager file).next_id = t.id + 1) ∧
    (∀ (st : ManagerState) (d : String) (due : Option String) (p : PriorityArg),
      (add_task st d due p).1.id = st.next_id ∧
      (add_task st d due p).2.next_id = st.next_id + 1 ∧
      (add_task st d due p).2.tasks = st.tasks ++ [(add_task st d due p).1]) ∧
    ((add_task (initManager file372) "x" none (.str none)).1.id = 8) ∧
    (((initManager file).tasks.map Task.id).Nodup → RegistryInv (initManager file)) ∧
    (∀ st : ManagerState, RegistryInv st →
      (∀ d due p, RegistryInv (add_task st d due p).2) ∧
      (∀ i, RegistryInv (mark_task_completed st i).2) ∧
      (∀ i, RegistryInv (remove_task st i).2)) := by
  refine ⟨?_, ?_, ?_, fun st d due p => ⟨rfl, rfl, rfl⟩, by decide, ?_, ?_⟩
  · intro t ht
    have h1 : t.id ≤ maxId (load_tasks file) := maxId_le t ht
    show t.id < maxId (load_tasks file) + 1
    omega
  · intro h
    show maxId (load_tasks file) + 1 = 1
    rw [h]
    decide
  · intro h
    obtain ⟨t, ht, heq⟩ := maxId_attained h
    refine ⟨t, ht, ?_⟩
    show maxId (load_tasks file) + 1 = t.id + 1
    rw [heq]
  · intro hnodup
    refine ⟨hnodup, ?_⟩
    intro t ht
    have h1 : t.id ≤ maxId (load_tasks file) := maxId_le t ht
    show t.id < maxId (load_tasks file) + 1
    omega
  · intro st hinv
    obtain ⟨hnd, hbound⟩ := hinv
    refine ⟨?_, ?_, ?_⟩
    · intro d due p
      have hnotmem : st.next_id ∉ st.tasks.map Task.id := by
        intro hm
        obtain ⟨u, hu, huid⟩ := List.mem_map.mp hm
        exact absurd (huid ▸ hbound u hu) (lt_irrefl _)
      constructor
      · have hmap : (add_task st d due p).2.tasks.map Task.id =
            st.tasks.map Task.id ++ [st.next_id] := by
          show (st.tasks ++ [_]).map Task.id = _
          rw [List.map_append]
          rfl
        rw [hmap]
        refine List.nodup_append.mpr ⟨hnd, List.nodup_singleton _, ?_⟩
        intro a ha hb
        rw [List.mem_singleton] at hb
        subst hb
        exact hnotmem ha
      · intro t ht
        show t.id < st.next_id + 1
        rcases List.mem_append.mp ht with h' | h'
        · have := hbound t h'
          omega
        · rw [List.mem_singleton] at h'
          subst h'
          show st.next_id < st.next_id + 1
          omega
    · intro i
      unfold mark_task_completed get_task_by_id
      cases hf : st.tasks.find? (fun t => t.id == i) with
      | none => exact ⟨hnd, hbound⟩
      | some u =>
        refine ⟨?_, ?_⟩
        · show ((markFirst i st.tasks).map Task.id).Nodup
          rw [markFirst_map_id]
          exact hnd
        · intro t ht
          show t.id < st.next_id
          obtain ⟨u', hu', hid⟩ := List.mem_map.mp (markFirst_mem_id ht)
          rw [← hid]
          exact hbound u' hu'
    · intro i
      have hsub : List.Sublist
          ((st.tasks.filter (fun t => t.id != i)).map Task.id)
          (st.tasks.map Task.id) :=
        (List.filter_sublist st.tasks).map Task.id
      have hn' : ((st.tasks.filter (fun t => t.id != i)).map Task.id).Nodup :=
        hnd.sublist hsub
      have hb' : ∀ t ∈ st.tasks.filter (fun t => t.id != i), t.id < st.next_id :=
        fun t ht => hbound t (List.mem_filter.mp ht).1
      simp only [remove_task]
      split
      · exact ⟨hn', hb'⟩
      · exact ⟨hn', hb'⟩

/-- C4 witness: the amended statement instantiated on concrete media and the
demo state. -/
theorem C4_witness :
    ((3 : Int) < (initManager file372).next_id) ∧
    (initManager (none : Option String)).next_id = 1 ∧
    (∃ t ∈ (initManager file372).tasks, (initManager file372).next_id = t.id + 1) ∧
    RegistryInv (initManager file372) ∧
    RegistryInv (add_task demoState "x" none (.str none)).2 :=
  ⟨(C4_ids_amended file372).1
      { id := 3, description := "a", due_date := none, completed := false
      , priority := .medium } (by decide),
   (C4_ids_amended none).2.1 (by decide),
   (C4_ids_amended file372).2.2.1 (by decide),
   (C4_ids_amended file372).2.2.2.2.2.1 (by decide),
   (((C4_ids_amended none).2.2.2.2.2.2 demoState ⟨by decide, by decide⟩).1
      "x" none (.str none))⟩

end SrpTasks
